import Mathlib

/-!
Verification of the ingredient-normalization, concern-tagging and
product-scoring core of the skincare recommendation repository.

Strings are modelled as `List Char`.  Python regular-expression steps are
translated into executable list functions:

* `re.sub(r'\s+', ' ', s)`      → `collapseWS`
* `s.strip()`                    → `trim`
* `s.lower()`                    → `List.map Char.toLower`
* `re.sub(r'^(w1|...)\s+', '', s)`  → `stripLeadingGeneric`
* `re.sub(r'\s+(w1|...)$', '', s)`  → `stripTrailingGeneric`
* `re.sub(r'\([^)]*\)', '', s)`    → `removeParens`

Python `float` arithmetic in the scorer is modelled by exact rationals
(`Rat`); every concrete value appearing in the claims is exactly
representable in binary floating point, so the models agree there.
-/

/-- Python `\s` on ASCII: space, tab, newline, carriage return,
vertical tab, form feed. -/
def isWS (c : Char) : Bool :=
  c = ' ' || c = '\t' || c = '\n' || c = '\r' || c = '\x0b' || c = '\x0c'

/-- Python `str.strip()`: drop leading and trailing whitespace. -/
def trim (l : List Char) : List Char :=
  ((l.dropWhile isWS).reverse.dropWhile isWS).reverse

/-- Python `re.sub(r'\s+', ' ', s)`: replace each maximal whitespace run
by a single space. -/
def collapseWS : List Char → List Char
  | [] => []
  | [c] => if isWS c then [' '] else [c]
  | c :: d :: rest =>
    if isWS c then
      if isWS d then collapseWS (d :: rest)
      else ' ' :: collapseWS (d :: rest)
    else c :: collapseWS (d :: rest)

/-- The fixed generic-word alternation of `normalize_ingredient`:
`extract|oil|powder|acid|filtrate|seed|fruit|leaf|root|flower`. -/
def generic_words : List (List Char) :=
  ["extract".data, "oil".data, "powder".data, "acid".data, "filtrate".data,
   "seed".data, "fruit".data, "leaf".data, "root".data, "flower".data]

/-- `w` is a prefix of `l` (used to test the anchored alternation). -/
def starts_with (w l : List Char) : Bool :=
  l.take w.length == w

/-- After skipping `w.length` characters of `l`, the next character is
whitespace (the `\s+` following the alternation). -/
def ws_after (w l : List Char) : Bool :=
  match l.drop w.length with
  | [] => false
  | c :: _ => isWS c

/-- Python `re.sub(r'^(extract|oil|...)\s+', '', s)`: if `s` begins with a
generic word followed by whitespace, remove the word and the whitespace
run after it.  No generic word is a prefix of another, so at most one
alternative can fire. -/
def stripLeadingGeneric (l : List Char) : List Char :=
  match generic_words.find? (fun w => starts_with w l && ws_after w l) with
  | some w => (l.drop w.length).dropWhile isWS
  | none => l

/-- Python `re.sub(r'\s+(extract|oil|...)$', '', s)`: if `s` ends with
whitespace followed by a generic word, remove that whitespace run and the
word.  No generic word is a suffix of another. -/
def stripTrailingGeneric (l : List Char) : List Char :=
  match generic_words.find?
      (fun w => starts_with w.reverse l.reverse && ws_after w.reverse l.reverse) with
  | some w => ((l.reverse.drop w.length).dropWhile isWS).reverse
  | none => l

/-- One-pass state machine for `re.sub(r'\([^)]*\)', '', s)`.  The flag
says whether we are inside a span being deleted.  Outside, a deletion
starts exactly at a `'('` that has some `')'` later (the regex then eats
up to the first such `')'`); a `'('` with no later `')'` cannot start a
match and is kept.  Inside, characters are dropped up to and including
the closing `')'`. -/
def removeParensGo : Bool → List Char → List Char
  | _, [] => []
  | true, c :: rest =>
    if c = ')' then removeParensGo false rest else removeParensGo true rest
  | false, c :: rest =>
    if c = '(' && rest.contains ')' then removeParensGo true rest
    else c :: removeParensGo false rest

/-- Python `re.sub(r'\([^)]*\)', '', s)`: delete every parenthesized
span, scanning left to right. -/
def removeParens (l : List Char) : List Char :=
  removeParensGo false l

/-- `normalize_ingredient` from `add_concern_tags.py`, line for line:
strip+collapse+lowercase, strip one leading generic word, strip one
trailing generic word, delete parenthesized spans, collapse+strip. -/
def normalize_ingredient (l : List Char) : List Char :=
  let s1 := (collapseWS (trim l)).map Char.toLower
  let s2 := stripLeadingGeneric s1
  let s3 := stripTrailingGeneric s2
  let s4 := removeParens s3
  trim (collapseWS s4)

/-- `normalize_ingredient` wrapped on `String`. -/
def normalize_ingredient_str (s : String) : String :=
  String.mk (normalize_ingredient s.data)

/-! ## Concern tagger (`find_matching_concerns_with_ranking`) -/

/-- `a` occurs as a contiguous run at the start of `b`. -/
def run_at_start : List Char → List Char → Bool
  | [], _ => true
  | _ :: _, [] => false
  | x :: xs, y :: ys => x == y && run_at_start xs ys

/-- Python string containment `a in b`: `a` is a contiguous substring of
`b` (the empty string is contained in everything). -/
def substring_of (a : List Char) : List Char → Bool
  | [] => a.isEmpty
  | y :: ys => run_at_start a (y :: ys) || substring_of a ys

/-- One (taxonomy key, product key) comparison of the tagger: exact
equality first; otherwise the substring rule, accepted only when both
normalized strings have length > 3. -/
def ingredient_match (ck k : List Char) : Bool :=
  if ck == k then true
  else if substring_of ck k || substring_of k ck then
    decide (ck.length > 3) && decide (k.length > 3)
  else false

/-- The inner rank scan: index of the first rank-table entry whose
normalized form equals the product key. -/
def rank_index (rank : List String) (key : List Char) : Option Nat :=
  rank.findIdx? (fun r => normalize_ingredient r.data == key)

/-- The loop over `normalized_ingredients` for one taxonomy key: Python
`break`s out at the first product key that matches (exactly or
partially), contributing that key's rank-table index if it has one. -/
def scan_keys (ck : List Char) (keys : List (List Char)) (rank : List String) : Option Nat :=
  match keys with
  | [] => none
  | k :: rest => if ingredient_match ck k then rank_index rank k else scan_keys ck rest rank

/-- Minimum of two optional scores; `none` plays `float('inf')`. -/
def optMin : Option Nat → Option Nat → Option Nat
  | none, b => b
  | some a, none => some a
  | some a, some b => some (min a b)

/-- `best_score` accumulation over one concern's ingredient list. -/
def best_score (cis : List String) (keys : List (List Char)) (rank : List String) : Option Nat :=
  cis.foldl (fun best ci => optMin best (scan_keys (normalize_ingredient ci.data) keys rank)) none

/-- The split-and-normalize of the raw comma-separated ingredients
string (`ingredient_list` / `normalized_ingredients` in the source). -/
def product_keys (ingredients : List Char) : List (List Char) :=
  (ingredients.splitOn ',').map (fun t => normalize_ingredient (trim t))

/-- `concern_scores`: concerns whose `best_score` ended up finite, each
with that score, in taxonomy iteration order. -/
def concern_scores (tax : List (String × List String)) (keys : List (List Char))
    (rank : List String) : List (String × Nat) :=
  tax.filterMap (fun e => (best_score e.2 keys rank).map (fun s => (e.1, s)))

/-- `find_matching_concerns_with_ranking` from `add_concern_tags.py`:
empty/whitespace guard, split and normalize, per-concern best scores,
stable ascending sort by score (`sorted(..., key=lambda x: x[1])` —
Python's sort is stable, and a stable sort by a total order is
extensionally unique, so `List.insertionSort` is the same function),
names only. -/
def find_matching_concerns_with_ranking (ingredients : String)
    (tax : List (String × List String)) (rank : List String) : List String :=
  if ingredients.data.isEmpty || (trim ingredients.data).isEmpty then []
  else
    (List.insertionSort (fun a b : String × Nat => a.2 ≤ b.2)
      (concern_scores tax (product_keys ingredients.data) rank)).map Prod.fst

/-! ## Products and the tagging caller -/

/-- A catalog product: `name`, passthrough `brand`/`price`, the raw
`ingredients` free text and the `concern_tags` field added by the
tagger.  `none` models an absent JSON key (Python `dict.get` default). -/
structure Product where
  name : String
  brand : Option String
  price : Option String
  ingredients : Option String
  concern_tags : Option (List String)

/-- The per-product body of `add_concern_tags_to_products`: tag from the
raw ingredients (absent → `""`), substitute `["general"]` when nothing
matched, store the list in `concern_tags`. -/
def add_concern_tags_to_product (tax : List (String × List String)) (rank : List String)
    (p : Product) : Product :=
  let matching_concerns := find_matching_concerns_with_ranking (p.ingredients.getD "") tax rank
  { p with concern_tags := some (if matching_concerns.isEmpty then ["general"] else matching_concerns) }

/-! ## Product scorer (`calculate_product_score`) -/

/-- `product.get("concern_tags", [])`. -/
def concern_tags_of (p : Product) : List String :=
  p.concern_tags.getD []

/-- `calculate_product_score` from `skincare_recommendation_engine.py`,
with Python floats replaced by exact rationals: `0.0` for missing/empty
or `["general"]` tags, otherwise for each user concern found among the
tags add `percentage * 1/(rank_index+1)` plus the severity bonus
(`20`, `10` or nothing) scaled by the same position weight.
`score_step` is one iteration of its loop over `user_concerns`. -/
def score_step (product_concerns : List String) (score : Rat) (uc : String × Rat) : Rat :=
  match product_concerns.findIdx? (fun t => t == uc.1) with
  | none => score
  | some ri =>
    let position_weight : Rat := 1 / ((ri : Rat) + 1)
    let score := score + uc.2 * position_weight
    if uc.2 ≥ (70 : Rat) then score + 20 * position_weight
    else if uc.2 ≥ (40 : Rat) then score + 10 * position_weight
    else score

/-- The product scorer: guard on trivial tags, then fold `score_step`
over the user's concern-weight pairs starting from `0`. -/
def calculate_product_score (p : Product) (user_concerns : List (String × Rat)) : Rat :=
  let product_concerns := concern_tags_of p
  if product_concerns.isEmpty || product_concerns == ["general"] then 0
  else user_concerns.foldl (score_step product_concerns) 0

/-! ## Recommendation selector -/

/-- `filter_products_by_concerns`: score every product, keep those at or
above the threshold, stable sort descending by score. -/
def filter_products_by_concerns (products : List Product)
    (user_concerns : List (String × Rat)) (min_score_threshold : Rat) :
    List (Product × Rat) :=
  List.insertionSort (fun a b : Product × Rat => b.2 ≤ a.2)
    ((products.map (fun p => (p, calculate_product_score p user_concerns))).filter
      (fun x => decide (min_score_threshold ≤ x.2)))

/-- Python `round(x, 2)` (round half to even at the second decimal),
over exact rationals. -/
def round2 (q : Rat) : Rat :=
  let x := q * 100
  let f := x.floor
  let r := x - f
  ((if r < 1/2 then f else if 1/2 < r then f + 1 else if f % 2 = 0 then f else f + 1) : Rat) / 100

/-- One entry of `get_quick_recommendations`' result list. -/
structure QuickRec where
  product_name : String
  brand : String
  price : String
  score : Rat

/-- `get_quick_recommendations`: filter at the default threshold `10.0`,
truncate to `num_recommendations`, project the display fields. -/
def get_quick_recommendations (products : List Product)
    (user_concerns : List (String × Rat)) (num_recommendations : Nat) : List QuickRec :=
  ((filter_products_by_concerns products user_concerns 10).take num_recommendations).map
    (fun x => { product_name := x.1.name, brand := x.1.brand.getD "",
                price := x.1.price.getD "", score := round2 x.2 })

/-! ## Rank-table builder helper (`extract_unique_ingredients.py`) -/

/-- Python `s.split()`: split on whitespace runs, discarding empties. -/
def splitWS (l : List Char) : List (List Char) :=
  (l.splitOnP isWS).filter (fun w => !w.isEmpty)

/-- `get_first_two_words` from `extract_unique_ingredients.py`.  The
source indexes `words[1]` inside the `len(words) >= 1` branch; the
`none` result models the `IndexError` raised when only one word exists,
and the `len(words) == 1` branch below it is unreachable. -/
def get_first_two_words (ingredient : String) : Option String :=
  let words := splitWS (trim ingredient.data)
  if words.length ≥ 1 then
    match words[0]?, words[1]? with
    | some w0, some w1 => some (String.mk ((w0 ++ [' '] ++ w1).map Char.toLower))
    | _, _ => none
  else if words.length = 1 then
    (words[0]?).map (fun w => String.mk (w.map Char.toLower))
  else some ""

/-! ## Claim-side readings used for comparison -/

/-- The spec's reading of the concern score for claim C4: the minimum
rank-table index over ALL ingredient/product-key match attempts of the
concern (every taxonomy ingredient against every product key), to be
compared with the code's first-match-only `best_score`. -/
def spec_min_attempt_score (cis : List String) (keys : List (List Char))
    (rank : List String) : Option Nat :=
  cis.foldr (fun ci acc =>
    optMin (keys.foldr (fun k acc2 =>
      optMin (if ingredient_match (normalize_ingredient ci.data) k then rank_index rank k
              else none) acc2) none) acc) none

/-- The score actually tracked by the code, reformulated: for each
taxonomy ingredient only the FIRST matching product key is attempted,
and the minimum of the resulting rank indices is kept. -/
def spec_first_match_score (cis : List String) (keys : List (List Char))
    (rank : List String) : Option Nat :=
  cis.foldr (fun ci acc =>
    optMin ((keys.find? (ingredient_match (normalize_ingredient ci.data))).bind
      (rank_index rank)) acc) none

/-- Comparison of optional scores where `none` plays `float('inf')`. -/
def optLE : Option Nat → Option Nat → Bool
  | none, none => true
  | none, some _ => false
  | some _, none => true
  | some a, some b => decide (a ≤ b)

/-- The list is ordered ascending by `f` (adjacent comparisons). -/
def ascending_by (f : String → Option Nat) : List String → Bool
  | [] => true
  | [_] => true
  | a :: b :: rest => optLE (f a) (f b) && ascending_by f (b :: rest)

/-! ## C1 -/

/-- C1: the claim says that with an empty rank table every concern with
at least one exact or partial match still appears in the tagger's
output.  The code disagrees: `"Salicylic Acid"` matches the single
taxonomy entry of `"acne"` exactly (second conjunct), yet with the rank
table empty the tagger returns `[]`, because line 89 of
`add_concern_tags.py` keeps a concern only when a finite rank-table
score was found. -/
theorem C1_empty_rank_table_returns_nothing :
    find_matching_concerns_with_ranking "Salicylic Acid" [("acne", ["Salicylic Acid"])] [] = [] ∧
    (product_keys "Salicylic Acid".data).any
      (fun k => ingredient_match (normalize_ingredient "Salicylic Acid".data) k) = true := by
  decide

/-! ## C2 -/

/-- C2 counterexample: `normalize` is not idempotent.  One application
maps `"Tea Tree Oil (Melaleuca)"` to `"tea tree oil"`; deleting the
parenthesized span exposed a trailing `"oil"`, which a second
application strips. -/
theorem C2_counterexample :
    normalize_ingredient (normalize_ingredient "Tea Tree Oil (Melaleuca)".data) ≠
      normalize_ingredient "Tea Tree Oil (Melaleuca)".data := by
  decide

/-! ## C3 -/

/-- C3 counterexample: `normalize("Tea Tree Oil (Melaleuca)")` is not
`"tea tree"`. -/
theorem C3_counterexample :
    normalize_ingredient_str "Tea Tree Oil (Melaleuca)" ≠ "tea tree" := by
  decide

/-- C3 amended: generic-word stripping runs before parenthetical
deletion, so the trailing `"oil"` of `"Tea Tree Oil (Melaleuca)"` is not
at the end of the string when the strip is attempted; the two inputs
normalize to different strings. -/
theorem C3_amended_values :
    normalize_ingredient_str "Tea Tree Oil (Melaleuca)" = "tea tree oil" ∧
    normalize_ingredient_str "Tea Tree" = "tea tree" := by
  decide

/-! ## C7 -/

/-- C7: a pair of normalized strings that both have length ≤ 3 matches
exactly or not at all: the substring rule never fires for such a pair
(and exact equality is tested before the substring rule). -/
theorem C7_short_pair_matches_only_exactly (ck k : List Char)
    (h1 : ck.length ≤ 3) (h2 : k.length ≤ 3) :
    ingredient_match ck k = (ck == k) := by
  unfold ingredient_match
  rcases hb : (ck == k) with _ | _
  · have h3 : ¬ (3 < ck.length) := by omega
    rw [decide_eq_false h3]
    simp
  · simp

/-- Witness for C7 at a concrete short unequal pair. -/
theorem C7_witness : ingredient_match "abc".data "ab".data = false := by
  rw [C7_short_pair_matches_only_exactly "abc".data "ab".data (by decide) (by decide)]
  decide

/-! ## C8 -/

/-- C8: the scorer returns `0` for every user concern-weight mapping
whenever the product's tags are absent, empty, or `["general"]`. -/
theorem C8_trivial_tags_score_zero (n : String) (b pr ing : Option String)
    (user : List (String × Rat)) :
    calculate_product_score ⟨n, b, pr, ing, none⟩ user = 0 ∧
    calculate_product_score ⟨n, b, pr, ing, some []⟩ user = 0 ∧
    calculate_product_score ⟨n, b, pr, ing, some ["general"]⟩ user = 0 := by
  refine ⟨?_, ?_, ?_⟩ <;> simp [calculate_product_score, concern_tags_of]

/-! ## C9 -/

/-- C9: an empty or whitespace-only raw ingredients string makes the
tagger return `[]`, and the tagging caller then stores exactly
`["general"]` in the product's `concern_tags` field. -/
theorem C9_blank_ingredients_general (s : String) (h : trim s.data = [])
    (tax : List (String × List String)) (rank : List String)
    (p : Product) (hp : p.ingredients = some s) :
    find_matching_concerns_with_ranking s tax rank = [] ∧
    (add_concern_tags_to_product tax rank p).concern_tags = some ["general"] := by
  have hfind : find_matching_concerns_with_ranking s tax rank = [] := by
    unfold find_matching_concerns_with_ranking
    simp [h]
  refine ⟨hfind, ?_⟩
  unfold add_concern_tags_to_product
  simp [hp, hfind]

/-- Witness for C9 at the whitespace-only string `" "`. -/
theorem C9_witness :
    find_matching_concerns_with_ranking " " [("acne", ["Niacinamide"])] ["Niacinamide"] = [] ∧
    (add_concern_tags_to_product [("acne", ["Niacinamide"])] ["Niacinamide"]
      ⟨"w", none, none, some " ", none⟩).concern_tags = some ["general"] :=
  C9_blank_ingredients_general " " (by decide) _ _ _ rfl

/-! ## C10 -/

/-- C10: `get_first_two_words` indexes `words[1]` inside its
`len(words) >= 1` branch, so an input with exactly one whitespace-word
raises `IndexError` (modelled as `none`); the function produces a value
only for inputs with zero or at least two words. -/
theorem C10_one_word_raises :
    (∀ s : String, (splitWS (trim s.data)).length = 1 → get_first_two_words s = none) ∧
    (∀ (s r : String), get_first_two_words s = some r →
      (splitWS (trim s.data)).length = 0 ∨ 2 ≤ (splitWS (trim s.data)).length) := by
  constructor
  · intro s h
    obtain ⟨w, hw⟩ := List.length_eq_one.mp h
    unfold get_first_two_words
    simp [hw]
  · intro s r h
    unfold get_first_two_words at h
    rcases hw : splitWS (trim s.data) with _ | ⟨w0, _ | ⟨w1, rest⟩⟩
    · left; simp [hw]
    · rw [hw] at h; simp at h
    · right; simp [hw]

/-- Witness for C10: the one-word ingredient `"Water"` raises. -/
theorem C10_witness : get_first_two_words "Water" = none :=
  C10_one_word_raises.1 "Water" (by decide)

/-! ## C5 -/

/-- The spec's per-user-concern contribution: weight times position
weight plus the severity bonus times the same position weight, `0` for a
concern not among the product's tags. -/
def tag_contribution (tags : List String) (uc : String) (pct : Rat) : Rat :=
  match tags.findIdx? (fun t => t == uc) with
  | none => 0
  | some ri =>
    pct * (1 / ((ri : Rat) + 1)) +
      (if pct ≥ (70 : Rat) then 20 else if pct ≥ (40 : Rat) then 10 else 0) *
        (1 / ((ri : Rat) + 1))

theorem score_step_eq (tags : List String) (a : Rat) (uc : String × Rat) :
    score_step tags a uc = a + tag_contribution tags uc.1 uc.2 := by
  unfold score_step tag_contribution
  rcases h : tags.findIdx? (fun t => t == uc.1) with _ | ri
  · simp [h]
  · simp only [h]
    split
    · ring
    · split
      · ring
      · ring

theorem foldl_score_step (tags : List String) :
    ∀ (l : List (String × Rat)) (a : Rat),
      l.foldl (score_step tags) a =
        a + (l.map (fun uc => tag_contribution tags uc.1 uc.2)).sum := by
  intro l
  induction l with
  | nil => intro a; simp
  | cons x xs ih =>
    intro a
    rw [List.foldl_cons, List.map_cons, List.sum_cons, ih, score_step_eq]
    ring

/-- C5: the worked example scores exactly `150`, and in general the
score of a product with nontrivial tags is the plain sum of the
per-concern contributions `pct * 1/(rank+1)` plus the severity bonus
scaled the same way — no normalization of the weight vector happens
inside the scorer. -/
theorem C5_score_formula :
    calculate_product_score ⟨"p", none, none, none, some ["acne", "dryness"]⟩
      [("acne", 80), ("dryness", 80)] = 150 ∧
    ∀ (p : Product) (user : List (String × Rat)),
      concern_tags_of p ≠ [] → concern_tags_of p ≠ ["general"] →
      calculate_product_score p user =
        (user.map (fun uc => tag_contribution (concern_tags_of p) uc.1 uc.2)).sum := by
  constructor
  · have h := foldl_score_step ["acne", "dryness"]
      [("acne", 80), ("dryness", 80)] 0
    unfold calculate_product_score
    simp only [concern_tags_of, Option.getD_some] at h ⊢
    rw [h]
    norm_num [tag_contribution, List.findIdx?]
    rw [if_neg (by decide)]
    norm_num
  · intro p user h1 h2
    unfold calculate_product_score
    rw [if_neg, foldl_score_step]
    · ring
    · simp [h1, h2]

/-- Witness for C5's general formula at a concrete product and user. -/
theorem C5_witness :
    calculate_product_score ⟨"q", none, none, none, some ["acne"]⟩
      [("dryness", 55), ("acne", 90)] =
      (([(("dryness" : String), (55 : Rat)), ("acne", 90)]).map
        (fun uc => tag_contribution
          (concern_tags_of ⟨"q", none, none, none, some ["acne"]⟩) uc.1 uc.2)).sum :=
  C5_score_formula.2 ⟨"q", none, none, none, some ["acne"]⟩
    [("dryness", 55), ("acne", 90)] (by decide) (by decide)

/-! ## C4 counterexample -/

/-- C4 counterexample: with product keys `abcdx, abcd, efgh`, taxonomy
`c ↦ [abcd]`, `d ↦ [efgh]` and rank table `[abcd, efgh, abcdx]`, the
taxonomy key `abcd` partially matches the FIRST product key `abcdx`
(rank 2) and the scan `break`s before attempting the exact match with
`abcd` (rank 0).  The claim's score — the minimum over ALL attempts —
is `0` for `c` and `1` for `d`, so the claimed ascending order would put
`c` first; the code returns `["d", "c"]`. -/
theorem C4_counterexample :
    find_matching_concerns_with_ranking "abcdx, abcd, efgh"
      [("c", ["abcd"]), ("d", ["efgh"])] ["abcd", "efgh", "abcdx"] = ["d", "c"] ∧
    spec_min_attempt_score ["abcd"]
      (product_keys "abcdx, abcd, efgh".data) ["abcd", "efgh", "abcdx"] = some 0 ∧
    spec_min_attempt_score ["efgh"]
      (product_keys "abcdx, abcd, efgh".data) ["abcd", "efgh", "abcdx"] = some 1 ∧
    ascending_by
      (fun c => spec_min_attempt_score
        ((([("c", ["abcd"]), ("d", ["efgh"])] : List (String × List String)).lookup c).getD [])
        (product_keys "abcdx, abcd, efgh".data) ["abcd", "efgh", "abcdx"])
      ["d", "c"] = false := by
  decide

/-! ## C6 -/

theorem filter_orderedInsert (r : α → α → Prop) [DecidableRel r] (c : α → Bool)
    (hc : ∀ a b, c a = true → c b = true → r a b) (x : α) :
    ∀ l : List α, (List.orderedInsert r x l).filter c =
      if c x then x :: l.filter c else l.filter c := by
  intro l
  induction l with
  | nil =>
    by_cases hcx : c x <;> simp [List.filter_cons, hcx]
  | cons y ys ih =>
    by_cases hxy : r x y
    · rw [List.orderedInsert, if_pos hxy]
      simp [List.filter_cons]
    · rw [List.orderedInsert, if_neg hxy, List.filter_cons, ih]
      by_cases hcx : c x <;> by_cases hcy : c y
      · exact absurd (hc x y hcx hcy) hxy
      · simp [hcx, hcy, List.filter_cons]
      · simp [hcx, hcy, List.filter_cons]
      · simp [hcx, hcy, List.filter_cons]

theorem filter_insertionSort (r : α → α → Prop) [DecidableRel r] (c : α → Bool)
    (hc : ∀ a b, c a = true → c b = true → r a b) :
    ∀ l : List α, (List.insertionSort r l).filter c = l.filter c := by
  intro l
  induction l with
  | nil => rfl
  | cons a l ih =>
    rw [List.insertionSort, filter_orderedInsert r c hc, ih, List.filter_cons]

/-- C6: the selector (`filter_products_by_concerns` followed by the
`[:limit]` truncation done in `get_quick_recommendations`) returns at
most `limit` entries, every returned score meets the threshold, the
entries are sorted non-increasing by score, and the entries of any
fixed score form a sublist of the score-annotated catalog — i.e. ties
keep the original catalog order. -/
theorem C6_selector_properties (products : List Product) (user : List (String × Rat))
    (thr : Rat) (limit : Nat) :
    ((filter_products_by_concerns products user thr).take limit).length ≤ limit ∧
    (∀ x ∈ (filter_products_by_concerns products user thr).take limit, thr ≤ x.2) ∧
    List.Pairwise (fun a b : Product × Rat => b.2 ≤ a.2)
      ((filter_products_by_concerns products user thr).take limit) ∧
    ∀ q : Rat,
      List.Sublist
        (((filter_products_by_concerns products user thr).take limit).filter
          (fun x => decide (x.2 = q)))
        ((products.map (fun p => (p, calculate_product_score p user))).filter
          (fun x => decide (x.2 = q))) := by
  haveI hTot : IsTotal (Product × Rat) (fun a b => b.2 ≤ a.2) :=
    ⟨fun a b => le_total b.2 a.2⟩
  haveI hTrans : IsTrans (Product × Rat) (fun a b => b.2 ≤ a.2) :=
    ⟨fun _ _ _ hab hbc => le_trans hbc hab⟩
  refine ⟨List.length_take_le _ _, ?_, ?_, ?_⟩
  · intro x hx
    have hx2 : x ∈ filter_products_by_concerns products user thr :=
      List.mem_of_mem_take hx
    unfold filter_products_by_concerns at hx2
    have hx3 := (List.perm_insertionSort _ _).subset hx2
    exact of_decide_eq_true (List.mem_filter.mp hx3).2
  · have hs : List.Pairwise (fun a b : Product × Rat => b.2 ≤ a.2)
        (filter_products_by_concerns products user thr) :=
      List.sorted_insertionSort _ _
    exact hs.sublist (List.take_sublist _ _)
  · intro q
    have hstab : (filter_products_by_concerns products user thr).filter
        (fun x => decide (x.2 = q)) =
        ((products.map (fun p => (p, calculate_product_score p user))).filter
          (fun x => decide (thr ≤ x.2))).filter (fun x => decide (x.2 = q)) := by
      unfold filter_products_by_concerns
      exact filter_insertionSort _ _
        (fun a b ha hb => by
          have ha2 := of_decide_eq_true ha
          have hb2 := of_decide_eq_true hb
          rw [ha2, hb2]) _
    have h1 : List.Sublist
        (((filter_products_by_concerns products user thr).take limit).filter
          (fun x => decide (x.2 = q)))
        ((filter_products_by_concerns products user thr).filter
          (fun x => decide (x.2 = q))) :=
      (List.take_sublist _ _).filter _
    rw [hstab] at h1
    exact h1.trans ((List.filter_sublist _).filter _)

/-- Witness for C6 at a concrete catalog. -/
theorem C6_witness :
    ((filter_products_by_concerns
      [⟨"a", none, none, none, some ["acne"]⟩, ⟨"b", none, none, none, some ["dryness"]⟩]
      [("acne", 80)] 10).take 1).length ≤ 1 :=
  (C6_selector_properties _ _ 10 1).1

/-! ## C4 amended -/

theorem optMin_none_right : ∀ a : Option Nat, optMin a none = a := by
  intro a; cases a <;> rfl

theorem optMin_assoc (a b c : Option Nat) :
    optMin (optMin a b) c = optMin a (optMin b c) := by
  cases a <;> cases b <;> cases c <;> simp [optMin, Nat.min_assoc]

theorem foldl_optMin (f : String → Option Nat) :
    ∀ (l : List String) (acc : Option Nat),
      l.foldl (fun b ci => optMin b (f ci)) acc =
        optMin acc (l.foldr (fun ci r => optMin (f ci) r) none) := by
  intro l
  induction l with
  | nil => intro acc; rw [List.foldl_nil, List.foldr_nil, optMin_none_right]
  | cons x xs ih =>
    intro acc
    rw [List.foldl_cons, List.foldr_cons, ih, optMin_assoc]

theorem scan_keys_eq_find (ck : List Char) (rank : List String) :
    ∀ keys : List (List Char),
      scan_keys ck keys rank = (keys.find? (ingredient_match ck)).bind (rank_index rank) := by
  intro keys
  induction keys with
  | nil => rfl
  | cons k rest ih =>
    cases h : ingredient_match ck k
    · simp [scan_keys, h, List.find?_cons_of_neg, ih]
    · simp [scan_keys, h, List.find?_cons_of_pos]

/-- The code's per-concern score equals the first-match-per-ingredient
minimum: the loop `break`s at the first matching product key for each
taxonomy ingredient. -/
theorem best_score_eq_first_match (cis : List String) (keys : List (List Char))
    (rank : List String) :
    best_score cis keys rank = spec_first_match_score cis keys rank := by
  unfold best_score spec_first_match_score
  rw [foldl_optMin (fun ci => scan_keys (normalize_ingredient ci.data) keys rank) cis none]
  simp only [scan_keys_eq_find]
  rfl

theorem nodup_fst_eq {γ δ : Type} {l : List (γ × δ)} (hnd : (l.map Prod.fst).Nodup) :
    ∀ {a : γ} {b1 b2 : δ}, (a, b1) ∈ l → (a, b2) ∈ l → b1 = b2 := by
  induction l with
  | nil => intro a b1 b2 h1; simp at h1
  | cons e es ih =>
    intro a b1 b2 h1 h2
    rw [List.map_cons, List.nodup_cons] at hnd
    rcases List.mem_cons.mp h1 with h1e | h1s <;> rcases List.mem_cons.mp h2 with h2e | h2s
    · exact (Prod.ext_iff.mp (h1e.trans h2e.symm)).2
    · exfalso
      apply hnd.1
      rw [← h1e]
      simpa using List.mem_map_of_mem Prod.fst h2s
    · exfalso
      apply hnd.1
      rw [← h2e]
      simpa using List.mem_map_of_mem Prod.fst h1s
    · exact ih hnd.2 h1s h2s

theorem concern_scores_fst_sublist (tax : List (String × List String))
    (keys : List (List Char)) (rank : List String) :
    List.Sublist ((concern_scores tax keys rank).map Prod.fst) (tax.map Prod.fst) := by
  induction tax with
  | nil => simp [concern_scores]
  | cons e es ih =>
    unfold concern_scores at ih ⊢
    rw [List.filterMap_cons]
    cases h : best_score e.2 keys rank
    · simpa using ih.cons e.1
    · simpa using ih.cons₂ e.1

/-- C4 amended: every taxonomy concern's tracked score is the
first-match-per-ingredient minimum (`spec_first_match_score`), and the
tagger's output is ordered ascending by those scores. -/
theorem C4_amended_first_match_ordering (ingredients : String)
    (tax : List (String × List String)) (rank : List String)
    (hnd : (tax.map Prod.fst).Nodup) :
    (∀ c cis s, (c, cis) ∈ tax →
      ((c, s) ∈ concern_scores tax (product_keys ingredients.data) rank ↔
        spec_first_match_score cis (product_keys ingredients.data) rank = some s)) ∧
    List.Pairwise (fun a b => ∀ sa sb,
        (a, sa) ∈ concern_scores tax (product_keys ingredients.data) rank →
        (b, sb) ∈ concern_scores tax (product_keys ingredients.data) rank → sa ≤ sb)
      (find_matching_concerns_with_ranking ingredients tax rank) := by
  constructor
  · intro c cis s hmem
    rw [← best_score_eq_first_match]
    constructor
    · intro hin
      obtain ⟨e, he, hfe⟩ := List.mem_filterMap.mp hin
      rcases hb : best_score e.2 (product_keys ingredients.data) rank with _ | s2
      · rw [hb] at hfe; simp at hfe
      · rw [hb] at hfe
        simp only [Option.map_some', Option.some.injEq, Prod.mk.injEq] at hfe
        obtain ⟨hc1, hs1⟩ := hfe
        have hce : (c, e.2) ∈ tax := by
          rw [← hc1]
          simpa using he
        have he2 : e.2 = cis := nodup_fst_eq hnd hce hmem
        rw [← he2, ← hs1]
        exact hb
    · intro hb
      apply List.mem_filterMap.mpr
      exact ⟨(c, cis), hmem, by rw [hb]; rfl⟩
  · unfold find_matching_concerns_with_ranking
    split
    · exact List.Pairwise.nil
    · rw [List.pairwise_map]
      haveI : IsTotal (String × Nat) (fun a b => a.2 ≤ b.2) := ⟨fun a b => le_total a.2 b.2⟩
      haveI : IsTrans (String × Nat) (fun a b => a.2 ≤ b.2) := ⟨fun _ _ _ => le_trans⟩
      have hsort : List.Pairwise (fun a b : String × Nat => a.2 ≤ b.2)
          (List.insertionSort (fun a b : String × Nat => a.2 ≤ b.2)
            (concern_scores tax (product_keys ingredients.data) rank)) :=
        List.sorted_insertionSort _ _
      have hnds : ((concern_scores tax (product_keys ingredients.data) rank).map
          Prod.fst).Nodup :=
        hnd.sublist (concern_scores_fst_sublist tax (product_keys ingredients.data) rank)
      refine hsort.imp_of_mem ?_
      intro x y hx hy hxy sa sb hsa hsb
      have hxs : x ∈ concern_scores tax (product_keys ingredients.data) rank :=
        (List.perm_insertionSort _ _).subset hx
      have hys : y ∈ concern_scores tax (product_keys ingredients.data) rank :=
        (List.perm_insertionSort _ _).subset hy
      have h1 : sa = x.2 := nodup_fst_eq hnds hsa (by simpa using hxs)
      have h2 : sb = y.2 := nodup_fst_eq hnds hsb (by simpa using hys)
      rw [h1, h2]
      exact hxy

/-- Witness for C4's amended statement at a concrete input. -/
theorem C4_amended_witness :
    (∀ c cis s,
      (c, cis) ∈ ([("acne", ["Niacinamide"]), ("dryness", ["Glycerin"])] :
          List (String × List String)) →
      ((c, s) ∈ concern_scores [("acne", ["Niacinamide"]), ("dryness", ["Glycerin"])]
          (product_keys "Niacinamide, Glycerin".data) ["Glycerin", "Niacinamide"] ↔
        spec_first_match_score cis (product_keys "Niacinamide, Glycerin".data)
          ["Glycerin", "Niacinamide"] = some s)) ∧
    List.Pairwise (fun a b => ∀ sa sb,
        (a, sa) ∈ concern_scores [("acne", ["Niacinamide"]), ("dryness", ["Glycerin"])]
          (product_keys "Niacinamide, Glycerin".data) ["Glycerin", "Niacinamide"] →
        (b, sb) ∈ concern_scores [("acne", ["Niacinamide"]), ("dryness", ["Glycerin"])]
          (product_keys "Niacinamide, Glycerin".data) ["Glycerin", "Niacinamide"] → sa ≤ sb)
      (find_matching_concerns_with_ranking "Niacinamide, Glycerin"
        [("acne", ["Niacinamide"]), ("dryness", ["Glycerin"])] ["Glycerin", "Niacinamide"]) :=
  C4_amended_first_match_ordering "Niacinamide, Glycerin"
    [("acne", ["Niacinamide"]), ("dryness", ["Glycerin"])] ["Glycerin", "Niacinamide"]
    (by decide)

/-! ## C2 amended: canonical-form lemmas for `normalize_ingredient` -/

theorem dropWhile_head_false {p : Char → Bool} :
    ∀ {l : List Char} {c : Char} {rest : List Char},
      l.dropWhile p = c :: rest → p c = false := by
  intro l
  induction l with
  | nil => intro c rest h; simp at h
  | cons a as ih =>
    intro c rest h
    by_cases ha : p a
    · rw [List.dropWhile_cons_of_pos ha] at h
      exact ih h
    · rw [List.dropWhile_cons_of_neg ha] at h
      cases h
      exact Bool.not_eq_true _ ▸ eq_false_of_ne_true (fun hc => ha hc)

theorem dropWhile_dropWhile (p : Char → Bool) (l : List Char) :
    (l.dropWhile p).dropWhile p = l.dropWhile p := by
  cases h : l.dropWhile p with
  | nil => rfl
  | cons c rest =>
    have hc : p c = false := dropWhile_head_false h
    rw [List.dropWhile_cons_of_neg (by simp [hc])]

theorem dropWhile_fixed_of_dropWhile_eq {p : Char → Bool} {y : List Char}
    (hy : y.dropWhile p = y) : ∀ {z : List Char}, (∃ t, z ++ t = y) → z.dropWhile p = z := by
  intro z hz
  obtain ⟨t, ht⟩ := hz
  cases z with
  | nil => rfl
  | cons c cs =>
    have hc : p c = false := by
      rw [← ht] at hy
      by_cases hpc : p c
      · rw [List.cons_append, List.dropWhile_cons_of_pos hpc] at hy
        have hle := (List.dropWhile_sublist (l := cs ++ t) p).length_le
        rw [hy] at hle
        simp at hle
      · exact eq_false_of_ne_true (fun hc2 => hpc hc2)
    rw [List.dropWhile_cons_of_neg (by simp [hc])]

theorem trim_trim (l : List Char) : trim (trim l) = trim l := by
  unfold trim
  have hA : ∀ x : List Char, (x.dropWhile isWS).dropWhile isWS = x.dropWhile isWS :=
    dropWhile_dropWhile isWS
  -- the inner list: y := l.dropWhile isWS satisfies y.dropWhile isWS = y
  -- z := trim l = ((y.reverse.dropWhile isWS)).reverse is a prefix of y
  have hz : ∃ t, (((l.dropWhile isWS).reverse.dropWhile isWS).reverse) ++ t =
      l.dropWhile isWS := by
    obtain ⟨t, ht⟩ := List.dropWhile_suffix (l := (l.dropWhile isWS).reverse) isWS
    refine ⟨t.reverse, ?_⟩
    have := congrArg List.reverse ht
    rwa [List.reverse_append, List.reverse_reverse] at this
  have h1 : (((l.dropWhile isWS).reverse.dropWhile isWS).reverse).dropWhile isWS =
      ((l.dropWhile isWS).reverse.dropWhile isWS).reverse :=
    dropWhile_fixed_of_dropWhile_eq (hA l) hz
  rw [h1, List.reverse_reverse, hA]

theorem trim_subset (l : List Char) : ∀ c, c ∈ trim l → c ∈ l := by
  intro c hc
  unfold trim at hc
  rw [List.mem_reverse] at hc
  have h1 := (List.dropWhile_sublist isWS).subset hc
  rw [List.mem_reverse] at h1
  exact (List.dropWhile_sublist isWS).subset h1

theorem collapseWS_subset : ∀ (l : List Char) (c : Char), c ∈ collapseWS l → c ∈ l ∨ c = ' ' := by
  intro l
  induction l with
  | nil => intro c hc; simp [collapseWS] at hc
  | cons a tail ih =>
    intro c hc
    cases tail with
    | nil =>
      by_cases ha : isWS a
      · rw [show collapseWS [a] = [' '] from by simp [collapseWS, ha]] at hc
        right; simpa using hc
      · rw [show collapseWS [a] = [a] from by simp [collapseWS, ha]] at hc
        left; simpa using hc
    | cons d rest =>
      by_cases ha : isWS a
      · by_cases hd : isWS d
        · rw [show collapseWS (a :: d :: rest) = collapseWS (d :: rest) from by
            simp [collapseWS, ha, hd]] at hc
          rcases ih c hc with h | h
          · exact Or.inl (List.mem_cons_of_mem a h)
          · exact Or.inr h
        · rw [show collapseWS (a :: d :: rest) = ' ' :: collapseWS (d :: rest) from by
            simp [collapseWS, ha, hd]] at hc
          rcases List.mem_cons.mp hc with h | h
          · exact Or.inr h
          · rcases ih c h with h2 | h2
            · exact Or.inl (List.mem_cons_of_mem a h2)
            · exact Or.inr h2
      · rw [show collapseWS (a :: d :: rest) = a :: collapseWS (d :: rest) from by
          simp [collapseWS, ha]] at hc
        rcases List.mem_cons.mp hc with h | h
        · exact Or.inl (h ▸ List.mem_cons_self a (d :: rest))
        · rcases ih c h with h2 | h2
          · exact Or.inl (List.mem_cons_of_mem a h2)
          · exact Or.inr h2

theorem collapseWS_ws_space : ∀ (l : List Char) (c : Char),
    c ∈ collapseWS l → isWS c = true → c = ' ' := by
  intro l
  induction l with
  | nil => intro c hc; simp [collapseWS] at hc
  | cons a tail ih =>
    intro c hc hw
    cases tail with
    | nil =>
      by_cases ha : isWS a
      · rw [show collapseWS [a] = [' '] from by simp [collapseWS, ha]] at hc
        simpa using hc
      · rw [show collapseWS [a] = [a] from by simp [collapseWS, ha]] at hc
        have : c = a := by simpa using hc
        rw [this] at hw
        exact absurd hw (by simp [ha])
    | cons d rest =>
      by_cases ha : isWS a
      · by_cases hd : isWS d
        · rw [show collapseWS (a :: d :: rest) = collapseWS (d :: rest) from by
            simp [collapseWS, ha, hd]] at hc
          exact ih c hc hw
        · rw [show collapseWS (a :: d :: rest) = ' ' :: collapseWS (d :: rest) from by
            simp [collapseWS, ha, hd]] at hc
          rcases List.mem_cons.mp hc with h | h
          · exact h
          · exact ih c h hw
      · rw [show collapseWS (a :: d :: rest) = a :: collapseWS (d :: rest) from by
          simp [collapseWS, ha]] at hc
        rcases List.mem_cons.mp hc with h | h
        · rw [h] at hw
          exact absurd hw (by simp [ha])
        · exact ih c h hw

/-- No two adjacent characters are both whitespace. -/
def noAdjWS (l : List Char) : Prop :=
  List.Chain' (fun a b => ¬(isWS a = true ∧ isWS b = true)) l

theorem collapseWS_head_nonWS {d : Char} (hd : ¬ isWS d = true) (rest : List Char) :
    ∃ t, collapseWS (d :: rest) = d :: t := by
  cases rest with
  | nil => exact ⟨[], by simp [collapseWS, hd]⟩
  | cons e r => exact ⟨collapseWS (e :: r), by simp [collapseWS, hd]⟩

theorem collapseWS_noAdjWS : ∀ l : List Char, noAdjWS (collapseWS l) := by
  intro l
  induction l with
  | nil => exact List.chain'_nil
  | cons a tail ih =>
    cases tail with
    | nil =>
      by_cases ha : isWS a <;>
        simp [collapseWS, ha, noAdjWS]
    | cons d rest =>
      by_cases ha : isWS a
      · by_cases hd : isWS d
        · rw [noAdjWS, show collapseWS (a :: d :: rest) = collapseWS (d :: rest) from by
            simp [collapseWS, ha, hd]]
          exact ih
        · rw [noAdjWS, show collapseWS (a :: d :: rest) = ' ' :: collapseWS (d :: rest) from by
            simp [collapseWS, ha, hd]]
          rw [List.chain'_cons']
          refine ⟨?_, ih⟩
          intro y hy
          obtain ⟨t, ht⟩ := collapseWS_head_nonWS hd rest
          rw [ht] at hy
          simp at hy
          rw [← hy]
          simp [hd]
      · rw [noAdjWS, show collapseWS (a :: d :: rest) = a :: collapseWS (d :: rest) from by
          simp [collapseWS, ha]]
        rw [List.chain'_cons']
        refine ⟨?_, ih⟩
        intro y _
        simp [ha]

theorem noAdjWS_reverse {l : List Char} (h : noAdjWS l) : noAdjWS l.reverse := by
  rw [noAdjWS, List.chain'_reverse]
  exact h.imp (fun a b hab h2 => hab ⟨h2.2, h2.1⟩)

theorem noAdjWS_trim {l : List Char} (h : noAdjWS l) : noAdjWS (trim l) := by
  unfold trim
  apply noAdjWS_reverse
  refine List.Chain'.suffix ?_ (List.dropWhile_suffix isWS)
  apply noAdjWS_reverse
  exact List.Chain'.suffix h (List.dropWhile_suffix isWS)

theorem collapseWS_fixed : ∀ l : List Char,
    (∀ c ∈ l, isWS c = true → c = ' ') → noAdjWS l → collapseWS l = l := by
  intro l
  induction l with
  | nil => intro _ _; rfl
  | cons a tail ih =>
    intro hsp hch
    cases tail with
    | nil =>
      by_cases ha : isWS a
      · have : a = ' ' := hsp a (List.mem_cons_self a []) ha
        simp [collapseWS, ha, this]
      · simp [collapseWS, ha]
    | cons d rest =>
      have hrel := (List.chain'_cons.mp hch).1
      have htail : noAdjWS (d :: rest) := (List.chain'_cons.mp hch).2
      have hspt : ∀ c ∈ d :: rest, isWS c = true → c = ' ' :=
        fun c hc => hsp c (List.mem_cons_of_mem a hc)
      by_cases ha : isWS a
      · have ha2 : a = ' ' := hsp a (List.mem_cons_self a _) ha
        have hd : ¬ isWS d = true := fun hd2 => hrel ⟨ha, hd2⟩
        rw [show collapseWS (a :: d :: rest) = ' ' :: collapseWS (d :: rest) from by
          simp [collapseWS, ha, hd], ih hspt htail, ha2]
      · rw [show collapseWS (a :: d :: rest) = a :: collapseWS (d :: rest) from by
          simp [collapseWS, ha], ih hspt htail]

theorem toNat_char_ofNat_lt {n : Nat} (h : n < 55296) : (Char.ofNat n).toNat = n := by
  unfold Char.ofNat
  rw [dif_pos (Or.inl h)]
  simp [Char.ofNatAux, Char.toNat, UInt32.toNat]

theorem toLower_toLower (c : Char) : c.toLower.toLower = c.toLower := by
  unfold Char.toLower
  by_cases h : c.toNat ≥ 65 ∧ c.toNat ≤ 90
  · rw [if_pos h]
    have h2 : (Char.ofNat (c.toNat + 32)).toNat = c.toNat + 32 :=
      toNat_char_ofNat_lt (by omega)
    rw [if_neg (fun hc => by rw [h2] at hc; omega)]
  · rw [if_neg h, if_neg h]

theorem map_toLower_fixed : ∀ l : List Char, (∀ c ∈ l, c.toLower = c) →
    l.map Char.toLower = l := by
  intro l
  induction l with
  | nil => intro _; rfl
  | cons a as ih =>
    intro h
    rw [List.map_cons, h a (List.mem_cons_self a as),
      ih (fun c hc => h c (List.mem_cons_of_mem a hc))]

theorem mem_removeParensGo : ∀ (l : List Char) (b : Bool) (c : Char),
    c ∈ removeParensGo b l → c ∈ l := by
  intro l
  induction l with
  | nil => intro b c hc; cases b <;> simp [removeParensGo] at hc
  | cons d rest ih =>
    intro b c hc
    cases b with
    | true =>
      rw [removeParensGo] at hc
      split at hc
      · exact List.mem_cons_of_mem d (ih false c hc)
      · exact List.mem_cons_of_mem d (ih true c hc)
    | false =>
      rw [removeParensGo] at hc
      split at hc
      · exact List.mem_cons_of_mem d (ih true c hc)
      · rcases List.mem_cons.mp hc with h | h
        · exact h ▸ List.mem_cons_self d rest
        · exact List.mem_cons_of_mem d (ih false c h)

theorem mem_stripLeadingGeneric (l : List Char) (c : Char) :
    c ∈ stripLeadingGeneric l → c ∈ l := by
  intro hc
  unfold stripLeadingGeneric at hc
  split at hc
  · exact List.drop_subset _ l ((List.dropWhile_sublist isWS).subset hc)
  · exact hc

theorem mem_stripTrailingGeneric (l : List Char) (c : Char) :
    c ∈ stripTrailingGeneric l → c ∈ l := by
  intro hc
  unfold stripTrailingGeneric at hc
  split at hc
  · rw [List.mem_reverse] at hc
    have h1 := List.drop_subset _ l.reverse ((List.dropWhile_sublist isWS).subset hc)
    rwa [List.mem_reverse] at h1
  · exact hc

theorem normalize_chars_lower (l : List Char) :
    ∀ c ∈ normalize_ingredient l, c.toLower = c := by
  intro c hc
  unfold normalize_ingredient at hc
  have h1 := trim_subset _ c hc
  rcases collapseWS_subset _ c h1 with h2 | h2
  · have h3 := mem_removeParensGo _ false c h2
    have h4 := mem_stripTrailingGeneric _ c h3
    have h5 := mem_stripLeadingGeneric _ c h4
    obtain ⟨a, _, ha2⟩ := List.mem_map.mp h5
    rw [← ha2]
    exact toLower_toLower a
  · rw [h2]
    rfl

/-- The string still contains a deletable span: some `'('` with a `')'`
after it. -/
def hasOBC : List Char → Bool
  | [] => false
  | c :: rest => (c = '(' && rest.contains ')') || hasOBC rest

theorem removeParensGo_fixed : ∀ l : List Char, hasOBC l = false →
    removeParensGo false l = l := by
  intro l
  induction l with
  | nil => intro _; rfl
  | cons c rest ih =>
    intro h
    rw [hasOBC, Bool.or_eq_false_iff] at h
    have hcond : ¬ ((c = '(' && rest.contains ')') = true) := by
      rw [h.1]
      simp
    rw [removeParensGo, if_neg hcond, ih h.2]

theorem contains_close_false_of_subset {l1 l2 : List Char}
    (hsub : ∀ x ∈ l1, x ∈ l2) (h : l2.contains ')' = false) :
    l1.contains ')' = false := by
  by_contra hc
  rw [Bool.not_eq_false, List.elem_iff] at hc
  have h2 : List.elem ')' l2 = true := List.elem_iff.mpr (hsub _ hc)
  have h3 : List.elem ')' l2 = false := h
  rw [h2] at h3
  cases h3

theorem hasOBC_removeParensGo : ∀ (l : List Char) (b : Bool),
    hasOBC (removeParensGo b l) = false := by
  intro l
  induction l with
  | nil => intro b; cases b <;> rfl
  | cons c rest ih =>
    intro b
    cases b with
    | true =>
      rw [removeParensGo]
      split
      · exact ih false
      · exact ih true
    | false =>
      by_cases h : (c = '(' && rest.contains ')') = true
      · rw [removeParensGo, if_pos h]
        exact ih true
      · rw [removeParensGo, if_neg h, hasOBC, Bool.or_eq_false_iff]
        refine ⟨?_, ih false⟩
        rw [Bool.and_eq_false_iff]
        rcases Bool.and_eq_false_iff.mp (eq_false_of_ne_true h) with h1 | h1
        · exact Or.inl h1
        · exact Or.inr (contains_close_false_of_subset (mem_removeParensGo rest false) h1)

/-- The character is a parenthesis. -/
def isParen (c : Char) : Bool :=
  c = '(' || c = ')'

/-- Only the parenthesis characters matter to `hasOBC`. -/
def obcChars (l : List Char) : List Char :=
  l.filter isParen

theorem isWS_not_paren {c : Char} (h : isWS c = true) : isParen c = false := by
  rw [isWS] at h
  rcases Bool.or_eq_true_iff.mp h with h1 | h1
  rotate_left
  · rw [of_decide_eq_true h1]; rfl
  rcases Bool.or_eq_true_iff.mp h1 with h2 | h2
  rotate_left
  · rw [of_decide_eq_true h2]; rfl
  rcases Bool.or_eq_true_iff.mp h2 with h3 | h3
  rotate_left
  · rw [of_decide_eq_true h3]; rfl
  rcases Bool.or_eq_true_iff.mp h3 with h4 | h4
  rotate_left
  · rw [of_decide_eq_true h4]; rfl
  rcases Bool.or_eq_true_iff.mp h4 with h5 | h5
  · rw [of_decide_eq_true h5]; rfl
  · rw [of_decide_eq_true h5]; rfl

theorem contains_close_obcChars : ∀ l : List Char,
    (obcChars l).contains ')' = l.contains ')' := by
  intro l
  induction l with
  | nil => rfl
  | cons d ds ih =>
    by_cases hp : isParen d = true
    · rw [obcChars, List.filter_cons_of_pos hp, List.contains_cons, List.contains_cons,
        ← obcChars, ih]
    · have h2 : ¬ (d = ')') :=
        of_decide_eq_false (Bool.or_eq_false_iff.mp (eq_false_of_ne_true hp)).2
      have hd : (')' == d) = false := beq_eq_false_iff_ne.mpr (fun he => h2 he.symm)
      rw [obcChars, List.filter_cons_of_neg hp, List.contains_cons, hd,
        Bool.false_or, ← obcChars, ih]

theorem hasOBC_obcChars : ∀ l : List Char, hasOBC (obcChars l) = hasOBC l := by
  intro l
  induction l with
  | nil => rfl
  | cons c rest ih =>
    by_cases hp : isParen c = true
    · rw [obcChars, List.filter_cons_of_pos hp, hasOBC, hasOBC, ← obcChars, ih,
        contains_close_obcChars]
    · have hc : (c = '(' : Bool) = false := by
        rcases Bool.or_eq_false_iff.mp (eq_false_of_ne_true hp) with ⟨h1, _⟩
        exact h1
      rw [obcChars, List.filter_cons_of_neg hp, ← obcChars, ih, hasOBC, hc,
        Bool.false_and, Bool.false_or]

theorem obcChars_cons_ws {a : Char} (ha : isWS a = true) (l : List Char) :
    obcChars (a :: l) = obcChars l := by
  rw [obcChars, List.filter_cons_of_neg (by simp [isWS_not_paren ha]), obcChars]

theorem obcChars_collapseWS : ∀ l : List Char, obcChars (collapseWS l) = obcChars l := by
  intro l
  induction l with
  | nil => rfl
  | cons a tail ih =>
    cases tail with
    | nil =>
      by_cases ha : isWS a
      · rw [show collapseWS [a] = [' '] from by simp [collapseWS, ha],
          obcChars_cons_ws (by decide), obcChars_cons_ws ha]
      · rw [show collapseWS [a] = [a] from by simp [collapseWS, ha]]
    | cons d rest =>
      by_cases ha : isWS a
      · by_cases hd : isWS d
        · rw [show collapseWS (a :: d :: rest) = collapseWS (d :: rest) from by
            simp [collapseWS, ha, hd], ih, obcChars_cons_ws ha]
        · rw [show collapseWS (a :: d :: rest) = ' ' :: collapseWS (d :: rest) from by
            simp [collapseWS, ha, hd], obcChars_cons_ws (by decide), ih,
            obcChars_cons_ws ha]
      · rw [show collapseWS (a :: d :: rest) = a :: collapseWS (d :: rest) from by
          simp [collapseWS, ha], obcChars, List.filter_cons, obcChars,
          List.filter_cons, ← obcChars, ← obcChars, ih]

theorem obcChars_dropWhile : ∀ l : List Char, obcChars (l.dropWhile isWS) = obcChars l := by
  intro l
  induction l with
  | nil => rfl
  | cons a tail ih =>
    by_cases ha : isWS a
    · rw [List.dropWhile_cons_of_pos ha, ih, obcChars, obcChars,
        List.filter_cons_of_neg (by simp [isWS_not_paren ha])]
    · rw [List.dropWhile_cons_of_neg ha]

theorem obcChars_reverse (l : List Char) : obcChars l.reverse = (obcChars l).reverse :=
  List.filter_reverse _ _

theorem obcChars_trim (l : List Char) : obcChars (trim l) = obcChars l := by
  unfold trim
  rw [obcChars_reverse, obcChars_dropWhile, obcChars_reverse, List.reverse_reverse,
    obcChars_dropWhile]

/-! ## C2 amended: the canonical facts about `normalize_ingredient` -/

theorem normalize_ws_space (l : List Char) :
    ∀ c ∈ normalize_ingredient l, isWS c = true → c = ' ' := by
  intro c hc
  unfold normalize_ingredient at hc
  exact collapseWS_ws_space _ c (trim_subset _ c hc)

theorem normalize_noAdjWS (l : List Char) : noAdjWS (normalize_ingredient l) :=
  noAdjWS_trim (collapseWS_noAdjWS _)

theorem normalize_trim_fixed (l : List Char) :
    trim (normalize_ingredient l) = normalize_ingredient l :=
  trim_trim _

theorem normalize_collapseWS_fixed (l : List Char) :
    collapseWS (normalize_ingredient l) = normalize_ingredient l :=
  collapseWS_fixed _ (normalize_ws_space l) (normalize_noAdjWS l)

theorem normalize_map_toLower_fixed (l : List Char) :
    (normalize_ingredient l).map Char.toLower = normalize_ingredient l :=
  map_toLower_fixed _ (normalize_chars_lower l)

theorem normalize_hasOBC (l : List Char) : hasOBC (normalize_ingredient l) = false := by
  show hasOBC (trim (collapseWS (removeParens (stripTrailingGeneric (stripLeadingGeneric
    ((collapseWS (trim l)).map Char.toLower)))))) = false
  rw [← hasOBC_obcChars, obcChars_trim, obcChars_collapseWS, hasOBC_obcChars]
  exact hasOBC_removeParensGo _ false

theorem normalize_removeParens_fixed (l : List Char) :
    removeParens (normalize_ingredient l) = normalize_ingredient l :=
  removeParensGo_fixed _ (normalize_hasOBC l)

/-- If neither generic-word stripper changes the once-normalized form,
a second normalization is the identity on it (the if-direction of the
amended C2). -/
theorem normalize_idempotent_of_strips_fixed (l : List Char)
    (h1 : stripLeadingGeneric (normalize_ingredient l) = normalize_ingredient l)
    (h2 : stripTrailingGeneric (normalize_ingredient l) = normalize_ingredient l) :
    normalize_ingredient (normalize_ingredient l) = normalize_ingredient l := by
  show trim (collapseWS (removeParens (stripTrailingGeneric (stripLeadingGeneric
    ((collapseWS (trim (normalize_ingredient l))).map Char.toLower))))) =
    normalize_ingredient l
  rw [normalize_trim_fixed l, normalize_collapseWS_fixed l, normalize_map_toLower_fixed l,
    h1, h2, normalize_removeParens_fixed l, normalize_collapseWS_fixed l,
    normalize_trim_fixed l]

/-! ## C2 amended, converse: a stripper that fires strictly shortens
the string, and no later normalization stage can lengthen it again. -/

theorem removeParensGo_length_le : ∀ (l : List Char) (b : Bool),
    (removeParensGo b l).length ≤ l.length := by
  intro l
  induction l with
  | nil => intro b; cases b <;> simp [removeParensGo]
  | cons c rest ih =>
    intro b
    cases b with
    | true =>
      rw [removeParensGo]
      split
      · exact le_trans (ih false) (Nat.le_succ rest.length)
      · exact le_trans (ih true) (Nat.le_succ rest.length)
    | false =>
      rw [removeParensGo]
      split
      · exact le_trans (ih true) (Nat.le_succ rest.length)
      · exact Nat.succ_le_succ (ih false)

theorem collapseWS_length_le : ∀ l : List Char, (collapseWS l).length ≤ l.length := by
  intro l
  induction l with
  | nil => exact le_refl 0
  | cons a tail ih =>
    cases tail with
    | nil => by_cases ha : isWS a <;> simp [collapseWS, ha]
    | cons d rest =>
      by_cases ha : isWS a
      · by_cases hd : isWS d
        · rw [show collapseWS (a :: d :: rest) = collapseWS (d :: rest) from by
            simp [collapseWS, ha, hd]]
          exact le_trans ih (Nat.le_succ _)
        · rw [show collapseWS (a :: d :: rest) = ' ' :: collapseWS (d :: rest) from by
            simp [collapseWS, ha, hd]]
          exact Nat.succ_le_succ ih
      · rw [show collapseWS (a :: d :: rest) = a :: collapseWS (d :: rest) from by
          simp [collapseWS, ha]]
        exact Nat.succ_le_succ ih

theorem trim_length_le (l : List Char) : (trim l).length ≤ l.length := by
  unfold trim
  rw [List.length_reverse]
  refine le_trans (List.dropWhile_sublist isWS).length_le ?_
  rw [List.length_reverse]
  exact (List.dropWhile_sublist isWS).length_le

theorem generic_words_pos : ∀ w ∈ generic_words, 0 < w.length := by decide

theorem stripLeadingGeneric_length_le (x : List Char) :
    (stripLeadingGeneric x).length ≤ x.length := by
  unfold stripLeadingGeneric
  split
  · refine le_trans (List.dropWhile_sublist isWS).length_le ?_
    rw [List.length_drop]
    omega
  · exact le_refl _

theorem stripTrailingGeneric_length_le (x : List Char) :
    (stripTrailingGeneric x).length ≤ x.length := by
  unfold stripTrailingGeneric
  split
  · rw [List.length_reverse]
    refine le_trans (List.dropWhile_sublist isWS).length_le ?_
    rw [List.length_drop, List.length_reverse]
    omega
  · exact le_refl _

theorem stripLeadingGeneric_length_lt (x : List Char)
    (h : stripLeadingGeneric x ≠ x) :
    (stripLeadingGeneric x).length < x.length := by
  unfold stripLeadingGeneric at h ⊢
  cases hf : generic_words.find? (fun w => starts_with w x && ws_after w x) with
  | none => rw [hf] at h; exact absurd rfl h
  | some w =>
    show (List.dropWhile isWS (x.drop w.length)).length < x.length
    have hp := List.find?_some hf
    rw [Bool.and_eq_true] at hp
    have hws : ws_after w x = true := hp.2
    have hdrop : x.drop w.length ≠ [] := by
      intro hnil
      rw [ws_after, hnil] at hws
      simp at hws
    have hlen : w.length < x.length := by
      by_contra hle
      push_neg at hle
      exact hdrop (List.drop_eq_nil_of_le hle)
    have hwpos : 0 < w.length := generic_words_pos w (List.mem_of_find?_eq_some hf)
    refine lt_of_le_of_lt (List.dropWhile_sublist isWS).length_le ?_
    rw [List.length_drop]
    omega

theorem stripTrailingGeneric_length_lt (x : List Char)
    (h : stripTrailingGeneric x ≠ x) :
    (stripTrailingGeneric x).length < x.length := by
  unfold stripTrailingGeneric at h ⊢
  cases hf : generic_words.find?
      (fun w => starts_with w.reverse x.reverse && ws_after w.reverse x.reverse) with
  | none => rw [hf] at h; exact absurd rfl h
  | some w =>
    show ((List.dropWhile isWS (x.reverse.drop w.length)).reverse).length < x.length
    have hp := List.find?_some hf
    rw [Bool.and_eq_true] at hp
    have hws : ws_after w.reverse x.reverse = true := hp.2
    have hdrop : x.reverse.drop w.reverse.length ≠ [] := by
      intro hnil
      rw [ws_after, hnil] at hws
      simp at hws
    have hlen : w.reverse.length < x.reverse.length := by
      by_contra hle
      push_neg at hle
      exact hdrop (List.drop_eq_nil_of_le hle)
    rw [List.length_reverse, List.length_reverse] at hlen
    have hwpos : 0 < w.length := generic_words_pos w (List.mem_of_find?_eq_some hf)
    rw [List.length_reverse]
    refine lt_of_le_of_lt (List.dropWhile_sublist isWS).length_le ?_
    rw [List.length_drop, List.length_reverse]
    omega

theorem normalize_normalize_length_lt (l : List Char)
    (hc : stripLeadingGeneric (normalize_ingredient l) ≠ normalize_ingredient l ∨
          stripTrailingGeneric (normalize_ingredient l) ≠ normalize_ingredient l) :
    (normalize_ingredient (normalize_ingredient l)).length <
      (normalize_ingredient l).length := by
  have hshow : normalize_ingredient (normalize_ingredient l) =
      trim (collapseWS (removeParens (stripTrailingGeneric (stripLeadingGeneric
        (normalize_ingredient l))))) := by
    show trim (collapseWS (removeParens (stripTrailingGeneric (stripLeadingGeneric
      ((collapseWS (trim (normalize_ingredient l))).map Char.toLower))))) = _
    rw [normalize_trim_fixed l, normalize_collapseWS_fixed l, normalize_map_toLower_fixed l]
  rw [hshow]
  have hv : (stripTrailingGeneric (stripLeadingGeneric (normalize_ingredient l))).length <
      (normalize_ingredient l).length := by
    by_cases h1 : stripLeadingGeneric (normalize_ingredient l) = normalize_ingredient l
    · rcases hc with hc | hc
      · exact absurd h1 hc
      · rw [h1]
        exact stripTrailingGeneric_length_lt _ hc
    · exact lt_of_le_of_lt (stripTrailingGeneric_length_le _)
        (stripLeadingGeneric_length_lt _ h1)
  exact lt_of_le_of_lt
    (le_trans (trim_length_le _)
      (le_trans (collapseWS_length_le _) (removeParensGo_length_le _ false))) hv

/-- C2 amended: `normalize` is idempotent on an input exactly when its
once-normalized form is left unchanged by both the leading and the
trailing generic-word strippers.  If both strippers fix it, a second
normalization is the identity; if either stripper changes it, a second
normalization strictly shortens the string.  (So `normalize` is not
idempotent in general: deleting a parenthesized span can expose a new
trailing or leading generic word, as `C2_counterexample` shows on
`"Tea Tree Oil (Melaleuca)"`.) -/
theorem C2_amended_idempotent_iff_strips_fixed (l : List Char) :
    normalize_ingredient (normalize_ingredient l) = normalize_ingredient l ↔
      (stripLeadingGeneric (normalize_ingredient l) = normalize_ingredient l ∧
       stripTrailingGeneric (normalize_ingredient l) = normalize_ingredient l) := by
  constructor
  · intro h
    by_contra hcon
    rw [not_and_or] at hcon
    have hlt := normalize_normalize_length_lt l hcon
    rw [h] at hlt
    exact lt_irrefl _ hlt
  · intro h
    exact normalize_idempotent_of_strips_fixed l h.1 h.2

/-- Witness for C2's amended statement: `"Hyaluronic  Acid"` normalizes
to `"hyaluronic"`, which neither stripper touches, so a second
normalization is the identity on it. -/
theorem C2_amended_witness :
    normalize_ingredient (normalize_ingredient "Hyaluronic  Acid".data) =
      normalize_ingredient "Hyaluronic  Acid".data :=
  (C2_amended_idempotent_iff_strips_fixed "Hyaluronic  Acid".data).mpr
    ⟨by decide, by decide⟩
